import Mathlib

/-!
Shallow embedding of the Music_Tui application core (`src/main.rs`).

The program is a terminal file browser doubling as an audio player.  All of
its logic lives in the methods of the `App` struct: directory listing and
ordering (`update_files`, `sort_files`, `shuffle_files`), selection
(`select_next`, `select_previous`), navigation (`enter_directory`,
`leave_directory`), and the playback state machine (`play_music`,
`pause_playback`, `resume_playback`, `stop_playback`, `play_next_song`).

External collaborators are passed as parameters:
  * the directory lister (`fs::read_dir`) is a function
    `String → Except Unit (List Entry)`;
  * the decoder (`File::open` + `Decoder::new`) is an oracle
    `String → Bool` telling which paths decode successfully;
  * the random shuffle (`SliceRandom::shuffle`) is a permutation
    `List Entry → List Entry` applied to the file group;
  * the parent-path computation of `std::path` is an oracle
    `String → Option String`.
The audio sink itself carries no state the specification claims talk about,
so calls to it are not modelled.  Operations that can panic in Rust
(`files[i]` out of bounds, `.expect("error")`) return `Option App`, `none`
standing for a panic that aborts the session.
-/

/-- One filesystem entry of the current listing: the path (as a string, the
way `PathBuf` is compared and stored) and whether it is a directory
(the `is_dir` query at listing time). -/
structure Entry where
  name : String
  isDir : Bool
deriving DecidableEq, Repr, Inhabited

/-- Split a character list at every dot, keeping empty groups. -/
def splitDots : List Char → List (List Char)
  | [] => [[]]
  | c :: cs =>
    match splitDots cs with
    | [] => [[]]
    | g :: gs => if c = '.' then [] :: g :: gs else (c :: g) :: gs

/-- Rust's `Path::extension()` on a file name: the part after the last dot,
or `none` when there is no dot or the name is a hidden file such as
`.bashrc` (a single leading dot). -/
def pathExtension (name : String) : Option String :=
  match splitDots name.toList with
  | [] => none
  | [_] => none
  | [[], _] => none
  | parts => parts.getLast?.map String.mk

/-- The audio test used by `play_next_song` (and the renderer):
`path.is_file() && extension == mp3 || extension == flac`. -/
def isAudioFile (e : Entry) : Bool :=
  !e.isDir && (pathExtension e.name == some "mp3" || pathExtension e.name == some "flac")

/-- The `AppState` enum: `Normal` is the idle state of the spec. -/
inductive AppState where
  | Normal
  | Playing
  | Paused
deriving DecidableEq, Repr

/-- The `App` struct, restricted to the fields the state machine reads and
writes.  `selected` is `list_state.selected()`; `ListState::default()` makes
it `none` initially. -/
structure App where
  current_path : String
  files : List Entry
  selected : Option Nat
  currently_playing : Option String
  state : AppState
  is_shuffling : Bool
deriving DecidableEq, Repr

/-- The comparator of `sort_files`:
`b.is_dir().cmp(&a.is_dir()).then_with(|a.cmp(b))`, read as a boolean
"not greater" relation: directories strictly precede files, ties are broken
by ascending path. -/
def entryLe (a b : Entry) : Bool :=
  (!b.isDir && a.isDir) || (a.isDir == b.isDir && decide (a.name ≤ b.name))

/-- The comparator of `Vec::sort` on paths (used on the directory group in
`shuffle_files`): ascending path order. -/
def nameLe (a b : Entry) : Bool := decide (a.name ≤ b.name)

/-- The list transformation of `sort_files`: a stable sort by `entryLe`. -/
def sortList (l : List Entry) : List Entry := l.mergeSort entryLe

/-- The list transformation of `shuffle_files`: partition into directories
and files (each keeping its relative order), shuffle the file group with the
random draw `π`, sort the directory group, and put directories first. -/
def shuffleList (π : List Entry → List Entry) (l : List Entry) : List Entry :=
  (l.filter (fun e => e.isDir)).mergeSort nameLe ++ π (l.filter (fun e => !e.isDir))

/-- `App::sort_files`. -/
def App.sort_files (a : App) : App := { a with files := sortList a.files }

/-- `App::shuffle_files`, with the random draw `π`. -/
def App.shuffle_files (π : List Entry → List Entry) (a : App) : App :=
  { a with files := shuffleList π a.files }

/-- `App::update_files`: replace `files` with the listing of `current_path`
(passed in as `listing`), order it according to `is_shuffling`, and select
index 0 when the result is non-empty.  When `read_dir` fails, the `?`
returns the error before any field is touched. -/
def App.update_files (listing : Except Unit (List Entry))
    (π : List Entry → List Entry) (a : App) : Except Unit App :=
  match listing with
  | .error e => .error e
  | .ok fs =>
    let a1 : App := { a with files := fs }
    let a2 : App := if a1.is_shuffling then a1.shuffle_files π else a1.sort_files
    .ok (if a2.files.isEmpty then a2 else { a2 with selected := some 0 })

/-- Result of `play_music`: whether the `Result` was `Ok`, and the state of
the `App` after the call (on failure the early return leaves every field
unchanged). -/
structure PlayResult where
  ok : Bool
  app : App
deriving DecidableEq, Repr

/-- `App::play_music`: stop the sink, open and decode the file (the decode
oracle `d`), and on success append the source, record `currently_playing`
and enter `Playing`. -/
def App.play_music (d : String → Bool) (path : String) (a : App) : PlayResult :=
  if d path then
    { ok := true
      app := { a with currently_playing := some path, state := AppState.Playing } }
  else
    { ok := false, app := a }

/-- `App::stop_playback`. -/
def App.stop_playback (a : App) : App :=
  { a with currently_playing := none, state := AppState.Normal }

/-- `App::pause_playback`. -/
def App.pause_playback (a : App) : App :=
  if a.state = AppState.Playing then { a with state := AppState.Paused } else a

/-- `App::resume_playback`. -/
def App.resume_playback (a : App) : App :=
  if a.state = AppState.Paused then { a with state := AppState.Playing } else a

/-- `App::select_next`: wraparound step forward, no-op on an empty listing. -/
def App.select_next (a : App) : App :=
  if a.files.isEmpty then a
  else
    let i := match a.selected with
      | some i => if i ≥ a.files.length - 1 then 0 else i + 1
      | none => 0
    { a with selected := some i }

/-- `App::select_previous`: wraparound step backward, no-op on an empty
listing. -/
def App.select_previous (a : App) : App :=
  if a.files.isEmpty then a
  else
    let i := match a.selected with
      | some i => if i = 0 then a.files.length - 1 else i - 1
      | none => 0
    { a with selected := some i }

/-- The candidate sequence of the cyclic scan in `play_next_song`:
`files.iter().cycle().skip(start_index).take(files.len())`, i.e. the
elements at indices `(start + k) % len` for `k = 0, …, len - 1`. -/
def cyclicSeq (files : List Entry) (start : Nat) : List Entry :=
  (List.range files.length).map (fun k => files.getD ((start + k) % files.length) default)

/-- `App::play_next_song`: on an empty listing stop; otherwise locate
`currently_playing` in `files`, scan cyclically from the following position
for the first audio file, play it (ignoring a playback error), and stop when
the scan finds nothing. -/
def App.play_next_song (d : String → Bool) (a : App) : App :=
  if a.files.isEmpty then a.stop_playback
  else
    let current_index := a.currently_playing.bind
      (fun p => a.files.findIdx? (fun f => f.name == p))
    let start_index := match current_index with
      | some i => i + 1
      | none => 0
    match (cyclicSeq a.files start_index).find? isAudioFile with
    | some e => (a.play_music d e.name).app
    | none => a.stop_playback

/-- `App::toggle_shuffle`: flip the mode, re-order the existing `files`
in place, and select index 0 unconditionally. -/
def App.toggle_shuffle (π : List Entry → List Entry) (a : App) : App :=
  let a1 : App := { a with is_shuffling := !a.is_shuffling }
  let a2 : App := if a1.is_shuffling then a1.shuffle_files π else a1.sort_files
  { a2 with selected := some 0 }

/-- `App::enter_directory`.  `none` models a panic aborting the session:
either the unchecked indexing `self.files[selected_index]` is out of
bounds, or the re-listing of the entered directory fails and
`.expect("error")` panics.  A playback error on a file entry is only
logged (`eprintln`) and the session continues. -/
def App.enter_directory (lister : String → Except Unit (List Entry))
    (π : List Entry → List Entry) (d : String → Bool) (a : App) : Option App :=
  match a.selected with
  | none => some a
  | some i =>
    match a.files.get? i with
    | none => none
    | some e =>
      if e.isDir then
        match ({ a with current_path := e.name } : App).update_files (lister e.name) π with
        | .ok a2 => some a2
        | .error _ => none
      else
        some (a.play_music d e.name).app

/-- `App::leave_directory`: move to the parent path when one exists and
re-list; a failed re-listing is swallowed by `unwrap_or_default`, so the
old listing stays on screen and only `current_path` has changed. -/
def App.leave_directory (parent : String → Option String)
    (lister : String → Except Unit (List Entry)) (π : List Entry → List Entry)
    (a : App) : App :=
  match parent a.current_path with
  | none => a
  | some p =>
    let a1 : App := { a with current_path := p }
    match a1.update_files (lister p) π with
    | .ok a2 => a2
    | .error _ => a1

/-- Modelled from the spec, §4.3.1 Advance algorithm: locate the index of
`now_playing` within the current `entries` sequence (absent means "not
found"); starting from `found_index + 1` (or `0` if not found), scan
forward cyclically through `entries`, wrapping at most once around the
full length, for the first entry that is an audio file; the result is that
entry, or `none` when the listing holds no audio file or is empty. -/
def advanceSpec (entries : List Entry) (now_playing : Option String) : Option Entry :=
  let found_index := now_playing.bind
    (fun p => entries.findIdx? (fun e => e.name == p))
  let start := match found_index with
    | some i => i + 1
    | none => 0
  (cyclicSeq entries start).find? isAudioFile

example : pathExtension "A.mp3" = some "mp3" := by decide
example : pathExtension ".hidden" = none := by decide
example : pathExtension "архив.tar.gz" = some "gz" := by decide
example : isAudioFile ⟨"song.flac", false⟩ = true := by decide
example : isAudioFile ⟨"song.flac", true⟩ = false := by decide

/-! Order-theoretic facts about the two comparators. -/

theorem entryLe_iff (a b : Entry) :
    entryLe a b = true ↔
      (b.isDir = false ∧ a.isDir = true) ∨ (a.isDir = b.isDir ∧ a.name ≤ b.name) := by
  simp only [entryLe, Bool.or_eq_true, Bool.and_eq_true, Bool.not_eq_true', beq_iff_eq,
    decide_eq_true_eq]

theorem entryLe_trans (a b c : Entry) (h1 : entryLe a b = true) (h2 : entryLe b c = true) :
    entryLe a c = true := by
  rw [entryLe_iff] at h1 h2 ⊢
  rcases h1 with ⟨hb, ha⟩ | ⟨hab, hn1⟩ <;> rcases h2 with ⟨hc, hb'⟩ | ⟨hbc, hn2⟩
  · exact absurd (hb.symm.trans hb') (by decide)
  · exact Or.inl ⟨hbc ▸ hb, ha⟩
  · exact Or.inl ⟨hc, hab.trans hb'⟩
  · exact Or.inr ⟨hab.trans hbc, le_trans hn1 hn2⟩

theorem entryLe_total (a b : Entry) : (entryLe a b || entryLe b a) = true := by
  rw [Bool.or_eq_true, entryLe_iff, entryLe_iff]
  rcases Bool.eq_false_or_eq_true a.isDir with ha | ha <;>
    rcases Bool.eq_false_or_eq_true b.isDir with hb | hb
  · rcases le_total a.name b.name with h | h
    · exact Or.inl (Or.inr ⟨ha.trans hb.symm, h⟩)
    · exact Or.inr (Or.inr ⟨hb.trans ha.symm, h⟩)
  · exact Or.inl (Or.inl ⟨hb, ha⟩)
  · exact Or.inr (Or.inl ⟨ha, hb⟩)
  · rcases le_total a.name b.name with h | h
    · exact Or.inl (Or.inr ⟨ha.trans hb.symm, h⟩)
    · exact Or.inr (Or.inr ⟨hb.trans ha.symm, h⟩)

theorem entryLe_antisymm (a b : Entry) (h1 : entryLe a b = true) (h2 : entryLe b a = true) :
    a = b := by
  rw [entryLe_iff] at h1 h2
  have hd : a.isDir = b.isDir := by
    rcases h1 with ⟨hb, ha⟩ | ⟨hab, _⟩
    · rcases h2 with ⟨ha', _⟩ | ⟨hba, _⟩
      · exact absurd (ha.symm.trans ha') (by decide)
      · exact hba.symm
    · exact hab
  have hn : a.name = b.name := by
    rcases h1 with ⟨hb, ha⟩ | ⟨_, hn1⟩
    · rcases h2 with ⟨ha', _⟩ | ⟨hba, _⟩
      · exact absurd (ha.symm.trans ha') (by decide)
      · exact absurd (hb.symm.trans (hba ▸ ha)) (by decide)
    · rcases h2 with ⟨ha', hb'⟩ | ⟨_, hn2⟩
      · exact absurd (ha'.symm.trans (hd ▸ hb')) (by decide)
      · exact le_antisymm hn1 hn2
  obtain ⟨an, ad⟩ := a
  obtain ⟨bn, bd⟩ := b
  simp only [Entry.mk.injEq]
  exact ⟨hn, hd⟩

instance : IsAntisymm Entry (fun a b => entryLe a b = true) := ⟨entryLe_antisymm⟩

theorem nameLe_trans (a b c : Entry) (h1 : nameLe a b = true) (h2 : nameLe b c = true) :
    nameLe a c = true := by
  simp only [nameLe, decide_eq_true_eq] at h1 h2 ⊢
  exact le_trans h1 h2

theorem nameLe_total (a b : Entry) : (nameLe a b || nameLe b a) = true := by
  simp only [nameLe, Bool.or_eq_true, decide_eq_true_eq]
  exact le_total a.name b.name

theorem entryLe_dirs_first {x y : Entry} (h : entryLe x y = true) (hx : x.isDir = false) :
    y.isDir = false := by
  rw [entryLe_iff] at h
  rcases h with ⟨_, hx'⟩ | ⟨hxy, _⟩
  · exact absurd (hx.symm.trans hx') (by decide)
  · exact hxy ▸ hx

theorem entryLe_name_le {x y : Entry} (h : entryLe x y = true) (hxy : x.isDir = y.isDir) :
    x.name ≤ y.name := by
  rw [entryLe_iff] at h
  rcases h with ⟨hy, hx⟩ | ⟨_, hn⟩
  · exact absurd (hx.symm.trans (hxy.trans hy)) (by decide)
  · exact hn

theorem entryLe_of_names {x y : Entry} (hxy : x.isDir = y.isDir) (h : x.name ≤ y.name) :
    entryLe x y = true := (entryLe_iff x y).mpr (Or.inr ⟨hxy, h⟩)

theorem entryLe_dir_file {x y : Entry} (hx : x.isDir = true) (hy : y.isDir = false) :
    entryLe x y = true := (entryLe_iff x y).mpr (Or.inl ⟨hy, hx⟩)

/-! Facts about the sorted ordering. -/

theorem sortList_perm (l : List Entry) : (sortList l).Perm l :=
  List.mergeSort_perm l entryLe

theorem sortList_pairwise (l : List Entry) :
    (sortList l).Pairwise (fun a b => entryLe a b = true) :=
  List.sorted_mergeSort entryLe_trans entryLe_total l

theorem sortList_idem (l : List Entry) : sortList (sortList l) = sortList l :=
  List.mergeSort_of_sorted (sortList_pairwise l)

theorem dirSort_pairwise (l : List Entry) :
    (l.mergeSort nameLe).Pairwise (fun a b => nameLe a b = true) :=
  List.sorted_mergeSort nameLe_trans nameLe_total l

/-- The sorted ordering decomposes into the name-sorted directory group
followed by the name-sorted file group. -/
theorem sortList_eq_append (l : List Entry) :
    sortList l = (l.filter (fun e => e.isDir)).mergeSort nameLe
      ++ (l.filter (fun e => !e.isDir)).mergeSort nameLe := by
  apply List.eq_of_perm_of_sorted (r := fun a b => entryLe a b = true)
  · exact (sortList_perm l).trans <| ((List.filter_append_perm (fun e => e.isDir) l).symm.trans
      (((List.mergeSort_perm _ nameLe).symm).append ((List.mergeSort_perm _ nameLe).symm)))
  · exact sortList_pairwise l
  · rw [List.Sorted, List.pairwise_append]
    refine ⟨?_, ?_, ?_⟩
    · refine (dirSort_pairwise _).imp_of_mem ?_
      intro x y hx hy hname
      have hx' : x.isDir = true := by
        have := List.of_mem_filter (List.mem_mergeSort.mp hx)
        simpa using this
      have hy' : y.isDir = true := by
        have := List.of_mem_filter (List.mem_mergeSort.mp hy)
        simpa using this
      exact entryLe_of_names (hx'.trans hy'.symm) (by simpa [nameLe] using hname)
    · refine (dirSort_pairwise _).imp_of_mem ?_
      intro x y hx hy hname
      have hx' : x.isDir = false := by
        have := List.of_mem_filter (List.mem_mergeSort.mp hx)
        simpa using this
      have hy' : y.isDir = false := by
        have := List.of_mem_filter (List.mem_mergeSort.mp hy)
        simpa using this
      exact entryLe_of_names (hx'.trans hy'.symm) (by simpa [nameLe] using hname)
    · intro x hx y hy
      have hx' : x.isDir = true := by
        have := List.of_mem_filter (List.mem_mergeSort.mp hx)
        simpa using this
      have hy' : y.isDir = false := by
        have := List.of_mem_filter (List.mem_mergeSort.mp hy)
        simpa using this
      exact entryLe_dir_file hx' hy'

/-- C6: `sort_files` places every directory before every file, keeps path
names non-decreasing inside each group, permutes the given entries (it is a
function of the entry list alone, hence deterministic), and is idempotent:
sorting a second time yields the same sequence. -/
theorem sort_files_sorted_and_idempotent (a : App) :
    (a.sort_files).files.Perm a.files ∧
    (a.sort_files).files.Pairwise (fun x y => x.isDir = false → y.isDir = false) ∧
    (a.sort_files).files.Pairwise (fun x y => x.isDir = y.isDir → x.name ≤ y.name) ∧
    (a.sort_files).sort_files = a.sort_files := by
  refine ⟨sortList_perm a.files, ?_, ?_, ?_⟩
  · exact (sortList_pairwise a.files).imp (fun h hx => entryLe_dirs_first h hx)
  · exact (sortList_pairwise a.files).imp (fun h hxy => entryLe_name_le h hxy)
  · show App.sort_files { a with files := sortList a.files } = _
    simp only [App.sort_files, sortList_idem]

/-- C7: for every random draw that permutes its input, the shuffled ordering
is a permutation of the sorted ordering: the name-sorted directories occupy
the same prefix positions, and only the order of the file suffix differs. -/
theorem shuffle_files_perm_sort_files (a : App) (π : List Entry → List Entry)
    (hπ : ∀ l : List Entry, (π l).Perm l) :
    ((a.shuffle_files π).files).Perm (a.sort_files).files ∧
    ((a.shuffle_files π).files).take ((a.files.filter (fun e => e.isDir)).length)
      = ((a.sort_files).files).take ((a.files.filter (fun e => e.isDir)).length) ∧
    (((a.shuffle_files π).files).drop ((a.files.filter (fun e => e.isDir)).length)).Perm
      (((a.sort_files).files).drop ((a.files.filter (fun e => e.isDir)).length)) := by
  have hsh : (a.shuffle_files π).files
      = (a.files.filter (fun e => e.isDir)).mergeSort nameLe
        ++ π (a.files.filter (fun e => !e.isDir)) := rfl
  have hso : (a.sort_files).files
      = (a.files.filter (fun e => e.isDir)).mergeSort nameLe
        ++ (a.files.filter (fun e => !e.isDir)).mergeSort nameLe := sortList_eq_append a.files
  have hlen : ((a.files.filter (fun e => e.isDir)).mergeSort nameLe).length
      = (a.files.filter (fun e => e.isDir)).length := List.length_mergeSort _
  have hfiles : (π (a.files.filter (fun e => !e.isDir))).Perm
      ((a.files.filter (fun e => !e.isDir)).mergeSort nameLe) :=
    (hπ _).trans (List.mergeSort_perm _ nameLe).symm
  refine ⟨?_, ?_, ?_⟩
  · rw [hsh, hso]
    exact List.Perm.append_left _ hfiles
  · rw [hsh, hso, List.take_left' hlen, List.take_left' hlen]
  · rw [hsh, hso, List.drop_left' hlen, List.drop_left' hlen]
    exact hfiles

/-- A concrete App used to instantiate the shuffle-partition theorem. -/
def appShuffleW : App :=
  { current_path := "/m"
    files := [⟨"d", true⟩, ⟨"x.mp3", false⟩, ⟨"y.mp3", false⟩]
    selected := some 0
    currently_playing := none
    state := AppState.Normal
    is_shuffling := false }

/-- Witness: the shuffle-partition theorem applied to a concrete App and the
identity draw. -/
theorem shuffle_files_perm_sort_files_w :
    ((appShuffleW.shuffle_files (fun l => l)).files).Perm (appShuffleW.sort_files).files ∧
    ((appShuffleW.shuffle_files (fun l => l)).files).take
        ((appShuffleW.files.filter (fun e => e.isDir)).length)
      = ((appShuffleW.sort_files).files).take
        ((appShuffleW.files.filter (fun e => e.isDir)).length) ∧
    (((appShuffleW.shuffle_files (fun l => l)).files).drop
        ((appShuffleW.files.filter (fun e => e.isDir)).length)).Perm
      (((appShuffleW.sort_files).files).drop
        ((appShuffleW.files.filter (fun e => e.isDir)).length)) :=
  shuffle_files_perm_sort_files appShuffleW (fun l => l) (fun l => List.Perm.refl l)

/-- C5 amended: after a successful refresh the entries are fully replaced by
the newly ordered listing, and the selection is reset to index 0 when the
new listing is non-empty; when it is empty the selection is left unchanged
(it is not cleared to `none`). -/
theorem update_files_replaces_and_resets (a : App) (π : List Entry → List Entry)
    (fs : List Entry) :
    ∃ a2 : App, a.update_files (Except.ok fs) π = Except.ok a2 ∧
      a2.files = (if a.is_shuffling then shuffleList π fs else sortList fs) ∧
      a2.selected = (if a2.files.isEmpty then a.selected else some 0) ∧
      a2.current_path = a.current_path ∧ a2.currently_playing = a.currently_playing ∧
      a2.state = a.state ∧ a2.is_shuffling = a.is_shuffling := by
  obtain ⟨cp, fl, sel, cpl, st, sh⟩ := a
  cases sh
  · by_cases he : sortList fs = []
    · refine ⟨⟨cp, sortList fs, sel, cpl, st, false⟩, ?_, rfl, ?_, rfl, rfl, rfl, rfl⟩
      · simp [App.update_files, App.sort_files, he]
      · simp [he]
    · refine ⟨⟨cp, sortList fs, some 0, cpl, st, false⟩, ?_, rfl, ?_, rfl, rfl, rfl, rfl⟩
      · simp [App.update_files, App.sort_files, he]
      · simp [he]
  · by_cases he : shuffleList π fs = []
    · refine ⟨⟨cp, shuffleList π fs, sel, cpl, st, true⟩, ?_, rfl, ?_, rfl, rfl, rfl, rfl⟩
      · simp [App.update_files, App.shuffle_files, he]
      · simp [he]
    · refine ⟨⟨cp, shuffleList π fs, some 0, cpl, st, true⟩, ?_, rfl, ?_, rfl, rfl, rfl, rfl⟩
      · simp [App.update_files, App.shuffle_files, he]
      · simp [he]

/-- A concrete App: one file listed, index 0 selected, sorted mode. -/
def appSel : App :=
  { current_path := "/m"
    files := [⟨"x.mp3", false⟩]
    selected := some 0
    currently_playing := none
    state := AppState.Normal
    is_shuffling := false }

/-- C5 counterexample: refreshing onto an empty listing does not clear the
selection — it stays `some 0` although `entries` is now empty. -/
theorem update_files_empty_listing_keeps_selection :
    appSel.update_files (Except.ok []) (fun l => l)
      = Except.ok { appSel with files := [] } ∧
    ({ appSel with files := [] } : App).selected = some 0 := by
  constructor
  · simp [appSel, App.update_files, App.sort_files, sortList]
  · rfl

/-- C9 amended: toggling the mode re-orders the existing entries (the result
is a function of the old `files` alone — no re-listing) and always selects
index 0, even when `entries` is empty. -/
theorem toggle_shuffle_reorders_and_selects_zero (a : App) (π : List Entry → List Entry) :
    (a.toggle_shuffle π).files
      = (if a.is_shuffling then sortList a.files else shuffleList π a.files) ∧
    (a.toggle_shuffle π).selected = some 0 ∧
    (a.toggle_shuffle π).is_shuffling = !a.is_shuffling ∧
    (a.toggle_shuffle π).current_path = a.current_path ∧
    (a.toggle_shuffle π).currently_playing = a.currently_playing ∧
    (a.toggle_shuffle π).state = a.state := by
  obtain ⟨cp, fl, sel, cpl, st, sh⟩ := a
  cases sh <;> simp [App.toggle_shuffle, App.shuffle_files, App.sort_files]

/-- A concrete App with an empty listing and no selection. -/
def appEmpty : App :=
  { current_path := "/m"
    files := []
    selected := none
    currently_playing := none
    state := AppState.Normal
    is_shuffling := false }

/-- C9 counterexample: toggling shuffle on an empty listing sets the
selection to index 0 although `entries` is empty. -/
theorem toggle_shuffle_empty_selects_zero :
    (appEmpty.toggle_shuffle (fun l => l)).files = [] ∧
    (appEmpty.toggle_shuffle (fun l => l)).selected = some 0 := by
  constructor
  · simp [appEmpty, App.toggle_shuffle, App.shuffle_files, shuffleList]
  · rfl

/-- A concrete App currently playing a track. -/
def appPlaying : App :=
  { current_path := "/m"
    files := [⟨"x.mp3", false⟩]
    selected := some 0
    currently_playing := some "old.mp3"
    state := AppState.Playing
    is_shuffling := false }

/-- C3 counterexample: a failed play call from `Playing` leaves the
controller in `Playing`, not `Idle`. -/
theorem play_music_failure_stays_playing :
    (appPlaying.play_music (fun _ => false) "bad.wav").ok = false ∧
    (appPlaying.play_music (fun _ => false) "bad.wav").app.state = AppState.Playing ∧
    ¬ (appPlaying.play_music (fun _ => false) "bad.wav").app.state = AppState.Normal := by
  refine ⟨rfl, rfl, ?_⟩
  decide

/-- C3 amended: when play fails the call returns the error and every field
of the App is unchanged — the starting state persists (Idle stays Idle, but
a Playing or Paused state equally persists); the caller reports the error
and the session continues. -/
theorem play_music_failure_leaves_app_unchanged (a : App) (d : String → Bool) (p : String)
    (hd : d p = false) :
    (a.play_music d p).ok = false ∧ (a.play_music d p).app = a := by
  simp [App.play_music, hd]

/-- Witness: the unchanged-on-failure theorem at a concrete App and path. -/
theorem play_music_failure_leaves_app_unchanged_w :
    (appPlaying.play_music (fun _ => false) "bad.wav").ok = false ∧
    (appPlaying.play_music (fun _ => false) "bad.wav").app = appPlaying :=
  play_music_failure_leaves_app_unchanged appPlaying (fun _ => false) "bad.wav" rfl

/-- A concrete App whose single entry is a sub-directory. -/
def appDirSel : App :=
  { current_path := "/m"
    files := [⟨"/m/sub", true⟩]
    selected := some 0
    currently_playing := none
    state := AppState.Normal
    is_shuffling := false }

/-- C2 (code bug): entering a directory whose listing is empty leaves the
stale selection `some 0` while `entries` becomes empty — the selection
invariant is violated in a reachable state — and activating again then
panics on the out-of-bounds index (the `none` outcome). -/
theorem enter_empty_directory_breaks_selection_invariant :
    ∃ a1 : App,
      appDirSel.enter_directory (fun _ => Except.ok []) (fun l => l) (fun _ => true)
        = some a1 ∧
      a1.files = [] ∧ a1.selected = some 0 ∧
      a1.enter_directory (fun _ => Except.ok []) (fun l => l) (fun _ => true) = none := by
  refine ⟨{ appDirSel with current_path := "/m/sub", files := [] }, ?_, rfl, rfl, rfl⟩
  simp [appDirSel, App.enter_directory, App.update_files, App.sort_files, sortList]

/-- C4 (code bug): when the directory listing fails, leaving to the parent
keeps the old entries and selection and returns normally, but entering the
selected directory panics through the expect call and aborts the session. -/
theorem listing_failure_enter_panics_leave_recovers :
    appDirSel.enter_directory (fun _ => Except.error ()) (fun l => l) (fun _ => true)
      = none ∧
    (appDirSel.leave_directory (fun _ => some "/") (fun _ => Except.error ())
        (fun l => l)).files = appDirSel.files ∧
    (appDirSel.leave_directory (fun _ => some "/") (fun _ => Except.error ())
        (fun l => l)).selected = appDirSel.selected := by
  exact ⟨rfl, rfl, rfl⟩

/-- One forward step: from a valid selection `i`, `select_next` moves the
selection to `(i + 1) % len` and leaves the listing alone. -/
theorem select_next_sel (a : App) (i : Nat) (hsel : a.selected = some i)
    (hlt : i < a.files.length) :
    (a.select_next).selected = some ((i + 1) % a.files.length) ∧
    (a.select_next).files = a.files := by
  have hne : ¬ a.files.isEmpty = true := by
    intro h
    rw [List.isEmpty_iff] at h
    rw [h] at hlt
    exact absurd hlt (by simp)
  refine ⟨?_, by simp only [App.select_next, if_neg hne]⟩
  simp only [App.select_next, if_neg hne, hsel]
  congr 1
  by_cases hge : i ≥ a.files.length - 1
  · rw [if_pos hge]
    have h1 : i + 1 = a.files.length := by omega
    rw [h1, Nat.mod_self]
  · rw [if_neg hge]
    exact (Nat.mod_eq_of_lt (by omega)).symm

/-- One backward step: from a valid selection `i`, `select_previous` moves
the selection to `(i + (len - 1)) % len` and leaves the listing alone. -/
theorem select_previous_sel (a : App) (i : Nat) (hsel : a.selected = some i)
    (hlt : i < a.files.length) :
    (a.select_previous).selected
      = some ((i + (a.files.length - 1)) % a.files.length) ∧
    (a.select_previous).files = a.files := by
  have hne : ¬ a.files.isEmpty = true := by
    intro h
    rw [List.isEmpty_iff] at h
    rw [h] at hlt
    exact absurd hlt (by simp)
  refine ⟨?_, by simp only [App.select_previous, if_neg hne]⟩
  simp only [App.select_previous, if_neg hne, hsel]
  congr 1
  by_cases h0 : i = 0
  · rw [if_pos h0, h0, Nat.zero_add]
    exact (Nat.mod_eq_of_lt (by omega)).symm
  · rw [if_neg h0]
    have h1 : i + (a.files.length - 1) = (i - 1) + a.files.length := by omega
    rw [h1, Nat.add_mod_right]
    exact (Nat.mod_eq_of_lt (by omega)).symm

/-- Iterating `select_next` adds the iteration count modulo the length. -/
theorem select_next_iter (a : App) (i k : Nat) (hsel : a.selected = some i)
    (hlt : i < a.files.length) :
    (App.select_next^[k] a).selected = some ((i + k) % a.files.length) ∧
    (App.select_next^[k] a).files = a.files := by
  induction k with
  | zero =>
    refine ⟨?_, rfl⟩
    rw [Function.iterate_zero_apply, hsel, Nat.add_zero, Nat.mod_eq_of_lt hlt]
  | succ k ih =>
    have hlt2 : (i + k) % a.files.length < a.files.length := Nat.mod_lt _ (by omega)
    have hlt3 : (i + k) % a.files.length < (App.select_next^[k] a).files.length := by
      rw [ih.2]
      exact hlt2
    have hstep := select_next_sel (App.select_next^[k] a) ((i + k) % a.files.length) ih.1 hlt3
    rw [Function.iterate_succ_apply']
    refine ⟨?_, hstep.2.trans ih.2⟩
    rw [hstep.1, ih.2, Nat.mod_add_mod, Nat.add_assoc]

/-- Iterating `select_previous` adds `len - 1` per step modulo the length. -/
theorem select_previous_iter (a : App) (i k : Nat) (hsel : a.selected = some i)
    (hlt : i < a.files.length) :
    (App.select_previous^[k] a).selected
      = some ((i + k * (a.files.length - 1)) % a.files.length) ∧
    (App.select_previous^[k] a).files = a.files := by
  induction k with
  | zero =>
    refine ⟨?_, rfl⟩
    rw [Function.iterate_zero_apply, hsel, Nat.zero_mul, Nat.add_zero,
      Nat.mod_eq_of_lt hlt]
  | succ k ih =>
    have hlt2 : (i + k * (a.files.length - 1)) % a.files.length < a.files.length :=
      Nat.mod_lt _ (by omega)
    have hlt3 : (i + k * (a.files.length - 1)) % a.files.length
        < (App.select_previous^[k] a).files.length := by
      rw [ih.2]
      exact hlt2
    have hstep := select_previous_sel (App.select_previous^[k] a)
      ((i + k * (a.files.length - 1)) % a.files.length) ih.1 hlt3
    rw [Function.iterate_succ_apply']
    refine ⟨?_, hstep.2.trans ih.2⟩
    rw [hstep.1, ih.2, Nat.mod_add_mod]
    congr 2
    ring

/-- C8: from any valid starting index, len(entries) applications of
select_next return the selection to the start, and likewise for
select_previous; both operations are no-ops on an empty listing. -/
theorem select_wraparound (a : App) (i : Nat) (hsel : a.selected = some i)
    (hlt : i < a.files.length) :
    (App.select_next^[a.files.length] a).selected = some i ∧
    (App.select_previous^[a.files.length] a).selected = some i ∧
    (∀ b : App, b.files = [] → b.select_next = b ∧ b.select_previous = b) := by
  refine ⟨?_, ?_, ?_⟩
  · rw [(select_next_iter a i a.files.length hsel hlt).1, Nat.add_comm i,
      Nat.add_mod_left, Nat.mod_eq_of_lt hlt]
  · rw [(select_previous_iter a i a.files.length hsel hlt).1,
      Nat.add_mul_mod_self_left, Nat.mod_eq_of_lt hlt]
  · intro b hb
    have hbe : b.files.isEmpty = true := by rw [hb]; rfl
    constructor <;> simp [App.select_next, App.select_previous, hbe]

/-- A concrete App with three entries and index 1 selected. -/
def appNav : App :=
  { current_path := "/m"
    files := [⟨"a", true⟩, ⟨"b.mp3", false⟩, ⟨"c.txt", false⟩]
    selected := some 1
    currently_playing := none
    state := AppState.Normal
    is_shuffling := false }

/-- Witness: the wraparound theorem at the concrete three-entry App. -/
theorem select_wraparound_w :
    (App.select_next^[appNav.files.length] appNav).selected = some 1 ∧
    (App.select_previous^[appNav.files.length] appNav).selected = some 1 :=
  ⟨(select_wraparound appNav 1 rfl (by decide)).1,
   (select_wraparound appNav 1 rfl (by decide)).2.1⟩

/-- Arithmetic helper: one wrap of the cyclic index. -/
theorem mod_two_window {x n : Nat} (hx : x < 2 * n) (hn : 0 < n) :
    x % n = if x < n then x else x - n := by
  by_cases h : x < n
  · rw [if_pos h, Nat.mod_eq_of_lt h]
  · rw [if_neg h]
    have h2 : x - n < n := by omega
    calc x % n = ((x - n) + n) % n := by congr 1; omega
      _ = (x - n) % n := Nat.add_mod_right _ _
      _ = x - n := Nat.mod_eq_of_lt h2

/-- The advance scan over an empty listing finds nothing. -/
theorem advanceSpec_nil (np : Option String) : advanceSpec [] np = none := by
  simp [advanceSpec, cyclicSeq]

/-- The cyclic candidate sequence examines exactly len(files) candidates. -/
theorem cyclicSeq_length (files : List Entry) (start : Nat) :
    (cyclicSeq files start).length = files.length := by
  simp [cyclicSeq]

/-- The index of the last candidate of the scan starting after i is i. -/
theorem cyclic_index_last (files : List Entry) (i : Nat) (hn : i < files.length) :
    (i + 1 + (files.length - 1)) % files.length = i := by
  have h1 : i + 1 + (files.length - 1) = i + files.length := by omega
  rw [h1, Nat.add_comm i, Nat.add_mod_left, Nat.mod_eq_of_lt hn]

/-- The cyclic scan that starts right after index i has the entry at index i
as its last candidate. -/
theorem cyclicSeq_getLast (files : List Entry) (i : Nat) (hn : i < files.length) :
    (cyclicSeq files (i + 1)).getLast? = some (files.getD i default) := by
  obtain ⟨m, hm⟩ : ∃ m, files.length = m + 1 := ⟨files.length - 1, by omega⟩
  have hidx : (i + 1 + m) % files.length = i := by
    have h2 : m = files.length - 1 := by omega
    rw [h2]
    exact cyclic_index_last files i hn
  simp only [cyclicSeq]
  rw [show List.range files.length = List.range m ++ [m] from by rw [hm, List.range_succ]]
  rw [List.map_append, List.map_cons, List.map_nil, List.getLast?_concat, hidx]

/-- When the entry at index i is the only audio entry of the listing, the
cyclic scan starting right after i finds exactly that entry. -/
theorem cyclicSeq_find_unique (files : List Entry) (i : Nat) (e : Entry)
    (hget : files.get? i = some e) (haudio : isAudioFile e = true)
    (huniq : ∀ j : Nat, ∀ e2 : Entry, files.get? j = some e2 →
      isAudioFile e2 = true → j = i) :
    (cyclicSeq files (i + 1)).find? isAudioFile = some e := by
  have hn : i < files.length := by
    rcases List.get?_eq_some.mp hget with ⟨h, _⟩
    exact h
  have hnpos : 0 < files.length := by omega
  obtain ⟨m, hm⟩ : ∃ m, files.length = m + 1 := ⟨files.length - 1, by omega⟩
  have hgetD : files.getD i default = e := by
    rw [List.getD_eq_get?, hget]
    rfl
  have hidx : (i + 1 + m) % files.length = i := by
    have h2 : m = files.length - 1 := by omega
    rw [h2]
    exact cyclic_index_last files i hn
  simp only [cyclicSeq, List.find?_map]
  rw [show List.range files.length = List.range m ++ [m] from by rw [hm, List.range_succ]]
  rw [List.find?_append]
  have hnone : List.find?
      (isAudioFile ∘ fun k => files.getD ((i + 1 + k) % files.length) default)
      (List.range m) = none := by
    rw [List.find?_eq_none]
    intro k hk
    rw [List.mem_range] at hk
    simp only [Function.comp_apply]
    intro hbad
    have hxlt : (i + 1 + k) % files.length < files.length := Nat.mod_lt _ hnpos
    obtain ⟨ex, hex⟩ : ∃ ex, files.get? ((i + 1 + k) % files.length) = some ex :=
      ⟨_, List.get?_eq_get hxlt⟩
    have hexD : files.getD ((i + 1 + k) % files.length) default = ex := by
      rw [List.getD_eq_get?, hex]
      rfl
    rw [hexD] at hbad
    have hje := huniq _ ex hex hbad
    rw [mod_two_window (by omega) hnpos] at hje
    by_cases hcase : i + 1 + k < files.length
    · rw [if_pos hcase] at hje
      omega
    · rw [if_neg hcase] at hje
      omega
  rw [hnone, Option.none_or]
  have hfm : (isAudioFile ∘ fun k => files.getD ((i + 1 + k) % files.length) default) m
      = true := by
    simp only [Function.comp_apply]
    rw [hidx, hgetD]
    exact haudio
  rw [List.find?_cons_of_pos _ hfm, Option.map_some']
  show some (files.getD ((i + 1 + m) % files.length) default) = some e
  rw [hidx, hgetD]

/-- The spec's wrap example: A is audio, B a directory, C audio; C plays. -/
def appWrap : App :=
  { current_path := "/m"
    files := [⟨"A.mp3", false⟩, ⟨"B", true⟩, ⟨"C.flac", false⟩]
    selected := some 0
    currently_playing := some "C.flac"
    state := AppState.Playing
    is_shuffling := false }

/-- C1: play_next_song implements the spec's advance algorithm: it locates
now_playing in entries and scans forward cyclically from found_index + 1
(or 0 when absent), the scan examining exactly len(entries) candidates;
with a succeeding decoder it transitions to Playing on the scan's first
audio entry, and to Idle (Normal, nothing playing) when the scan finds no
audio entry or the listing is empty; on the wrap example
[A(audio), B(dir), C(audio)] with C playing it selects A. -/
theorem play_next_song_follows_advance (a : App) (d : String → Bool)
    (hd : ∀ q : String, d q = true) :
    (∀ e : Entry, advanceSpec a.files a.currently_playing = some e →
        (a.play_next_song d).state = AppState.Playing ∧
        (a.play_next_song d).currently_playing = some e.name) ∧
    (advanceSpec a.files a.currently_playing = none →
        (a.play_next_song d).state = AppState.Normal ∧
        (a.play_next_song d).currently_playing = none) ∧
    (∀ s : Nat, (cyclicSeq a.files s).length = a.files.length) ∧
    ((appWrap.play_next_song (fun _ => true)).currently_playing = some "A.mp3" ∧
      (appWrap.play_next_song (fun _ => true)).state = AppState.Playing) := by
  have hsplit : a.play_next_song d
      = (if a.files.isEmpty then a.stop_playback
         else
           match advanceSpec a.files a.currently_playing with
           | some e => (a.play_music d e.name).app
           | none => a.stop_playback) := rfl
  refine ⟨?_, ?_, fun s => cyclicSeq_length a.files s, by decide⟩
  · intro e he
    by_cases hemp : a.files.isEmpty = true
    · rw [List.isEmpty_iff.mp hemp, advanceSpec_nil] at he
      exact Option.noConfusion he
    · rw [hsplit, if_neg hemp, he]
      simp [App.play_music, hd e.name]
  · intro he
    by_cases hemp : a.files.isEmpty = true
    · rw [hsplit, if_pos hemp]
      exact ⟨rfl, rfl⟩
    · rw [hsplit, if_neg hemp, he]
      exact ⟨rfl, rfl⟩

/-- Witness: the advance theorem at the wrap example with an
always-succeeding decoder; the scan wraps past the directory B and selects
A. -/
theorem play_next_song_follows_advance_w :
    (appWrap.play_next_song (fun _ => true)).state = AppState.Playing ∧
    (appWrap.play_next_song (fun _ => true)).currently_playing
      = some (Entry.name ⟨"A.mp3", false⟩) :=
  (play_next_song_follows_advance appWrap (fun _ => true) (fun _ => rfl)).1
    ⟨"A.mp3", false⟩ (by decide)

/-- C10: when now_playing occurs in the listing and is the only audio
entry, play_next_song selects it again and restarts it (single-track
repeat) rather than stopping: the cyclic scan of len(entries) candidates
starting at found_index + 1 has the entry at found_index as its last
candidate. -/
theorem play_next_song_single_repeat (a : App) (d : String → Bool) (p : String)
    (i : Nat) (e : Entry)
    (hd : ∀ q : String, d q = true)
    (hplay : a.currently_playing = some p)
    (hfind : a.files.findIdx? (fun f => f.name == p) = some i)
    (hget : a.files.get? i = some e)
    (haudio : isAudioFile e = true)
    (huniq : ∀ j : Nat, ∀ e2 : Entry, a.files.get? j = some e2 →
      isAudioFile e2 = true → j = i) :
    (a.play_next_song d).state = AppState.Playing ∧
    (a.play_next_song d).currently_playing = some e.name ∧
    (cyclicSeq a.files (i + 1)).getLast? = some e := by
  have hn : i < a.files.length := by
    rcases List.get?_eq_some.mp hget with ⟨h, _⟩
    exact h
  have hne : ¬ a.files.isEmpty = true := by
    intro h
    rw [List.isEmpty_iff.mp h] at hget
    exact Option.noConfusion hget
  have hfound := cyclicSeq_find_unique a.files i e hget haudio huniq
  have hgetD : a.files.getD i default = e := by
    rw [List.getD_eq_get?, hget]
    rfl
  have hstep : a.play_next_song d = (a.play_music d e.name).app := by
    simp only [App.play_next_song, if_neg hne, hplay, Option.some_bind, hfind, hfound]
  refine ⟨?_, ?_, ?_⟩
  · rw [hstep]
    simp [App.play_music, hd e.name]
  · rw [hstep]
    simp [App.play_music, hd e.name]
  · rw [cyclicSeq_getLast a.files i hn, hgetD]

/-- A concrete App whose only audio entry is the one currently playing. -/
def appRepeat : App :=
  { current_path := "/m"
    files := [⟨"s.mp3", false⟩, ⟨"t.txt", false⟩, ⟨"u", true⟩]
    selected := some 0
    currently_playing := some "s.mp3"
    state := AppState.Playing
    is_shuffling := false }

/-- Witness: the single-track repeat theorem at a concrete App whose only
audio entry is the playing one. -/
theorem play_next_song_single_repeat_w :
    (appRepeat.play_next_song (fun _ => true)).state = AppState.Playing ∧
    (appRepeat.play_next_song (fun _ => true)).currently_playing
      = some (Entry.name ⟨"s.mp3", false⟩) ∧
    (cyclicSeq appRepeat.files (0 + 1)).getLast? = some ⟨"s.mp3", false⟩ :=
  play_next_song_single_repeat appRepeat (fun _ => true) "s.mp3" 0 ⟨"s.mp3", false⟩
    (fun _ => rfl) rfl (by decide) (by decide) (by decide)
    (by
      intro j e2 hj ha
      cases j with
      | zero => rfl
      | succ j1 =>
        cases j1 with
        | zero =>
          rw [show appRepeat.files.get? 1 = some ⟨"t.txt", false⟩ from rfl] at hj
          cases hj
          exact absurd ha (by decide)
        | succ j2 =>
          cases j2 with
          | zero =>
            rw [show appRepeat.files.get? 2 = some ⟨"u", true⟩ from rfl] at hj
            cases hj
            exact absurd ha (by decide)
          | succ j3 =>
            rw [show appRepeat.files.get? (j3 + 3) = none from rfl] at hj
            exact Option.noConfusion hj)
